import Mathlib

/-!
Verification of the brutus HTTP brute-forcing engine (`src/main.rs`) against
its natural-language specification.  The Rust source is shallowly embedded:

* text is modelled as `List Char`, raw bytes as `List Nat`;
* `String::from_utf8_lossy` is modelled by `utf8LossyDecode` (WHATWG
  maximal-subpart replacement, as Rust implements it);
* `str::lines`, `str::trim_end`, `str::replace` and `str::contains` are
  modelled by `rustLines`, `rustTrimEnd`, `replaceAll` and `containsSub`;
* the `httparse` head parser (64 header slots, as in
  `let mut headers = [httparse::EMPTY_HEADER; 64]`) is modelled by
  `parseHead`; `reqwest::Url::parse(..).join(..)` is an external library and
  is passed in as an oracle `urlJoin`;
* the per-lane retry loop (`for _retry in 0..3`), the collector loop and the
  per-lane pacing arithmetic are modelled by `retryLoop`, `collectorRun`
  and `laneRun` below, each mirroring the corresponding Rust statements.
-/

namespace Brutus

/-- Verdict printed by the result collector (`SUCCESS` / `FAILED`). -/
inductive Verdict where
  | success
  | failed
deriving DecidableEq, Repr

/-- A transport-level failure (`reqwest::Error`): connection refused,
timeout, TLS failure.  Its payload is irrelevant to the engine. -/
inductive TransportErr where
  | mk
deriving DecidableEq, Repr

/-- A fully received HTTP response: status code (`as_u16`) and raw body
bytes (`response.bytes()`). -/
structure HttpResponse where
  status : Nat
  body : List Nat
deriving DecidableEq, Repr

/-- The configured success predicate: `--status`, `--body`, `--not-body`
command line options (`status`, `body`, `not_body` in `http_brute_force`). -/
structure SuccessCriteria where
  status : Option Nat
  body : Option (List Char)
  notBody : Option (List Char)
deriving DecidableEq, Repr

/-! ## Rust string primitives -/

/-- Unicode `White_Space` test used by Rust's `str::trim_end`
(`char::is_whitespace`). -/
def rustIsWhitespace (c : Char) : Bool :=
  let n := c.toNat
  (0x9 ≤ n && n ≤ 0xD) || n = 0x20 || n = 0x85 || n = 0xA0 || n = 0x1680 ||
    (0x2000 ≤ n && n ≤ 0x200A) || n = 0x2028 || n = 0x2029 || n = 0x202F ||
    n = 0x205F || n = 0x3000

/-- Rust `str::trim_end`: remove trailing whitespace, keep leading. -/
def rustTrimEnd (l : List Char) : List Char :=
  (List.dropWhile rustIsWhitespace l.reverse).reverse

/-- Split a character list at its first newline: returns the text before the
first `'\n'` and the text after it, or `none` if there is no newline. -/
def splitAtNl : List Char → Option (List Char × List Char)
  | [] => none
  | c :: t =>
    if c = '\n' then some ([], t)
    else (splitAtNl t).map (fun p => (c :: p.1, p.2))

/-- Remove a single trailing carriage return, as `str::lines` does for
`\r\n` line endings. -/
def stripCR (l : List Char) : List Char :=
  if l.getLast? = some '\r' then l.dropLast else l

/-- Worker of `rustLines`: `acc` holds the characters of the current line
in reverse. -/
def linesGo (acc : List Char) : List Char → List (List Char)
  | [] => if acc.isEmpty then [] else [acc.reverse]
  | c :: t =>
    if c = '\n' then stripCR acc.reverse :: linesGo [] t
    else linesGo (c :: acc) t

/-- Rust `str::lines`: split at `'\n'`, strip one `'\r'` before each
newline; a final fragment without a newline is kept as-is; a trailing
newline does not produce a final empty line. -/
def rustLines (s : List Char) : List (List Char) :=
  linesGo [] s

/-- The wordlist of the run: `wordlist_contents.lines().map(|l| l.trim_end())`. -/
def wordlistEntries (contents : List Char) : List (List Char) :=
  (rustLines contents).map rustTrimEnd

/-- `pat` is a prefix of `l` (Boolean). -/
def isPrefixList : List Char → List Char → Bool
  | [], _ => true
  | _ :: _, [] => false
  | p :: ps, h :: hs => p = h && isPrefixList ps hs

/-- Rust `str::contains`: `pat` occurs as a contiguous substring of `hay`. -/
def containsSub (hay pat : List Char) : Bool :=
  match hay with
  | [] => pat.isEmpty
  | _ :: t => isPrefixList pat hay || containsSub t pat

/-- Rust `str::replace(pat, rep)`: replace each leftmost non-overlapping
occurrence of `pat`, left to right, non-recursively.  (Rust's behaviour for
an empty pattern, which inserts `rep` between characters, is not modelled;
the engine only ever uses the non-empty pattern `"FUZZ"`.) -/
def replaceAllGo (pat rep : List Char) : Nat → List Char → List Char
  | _, [] => []
  | 0, s => s
  | fuel + 1, c :: rest =>
    if isPrefixList pat (c :: rest) && !pat.isEmpty then
      rep ++ replaceAllGo pat rep fuel ((c :: rest).drop pat.length)
    else
      c :: replaceAllGo pat rep fuel rest

/-- Entry point of `str::replace`: the fuel `s.length` dominates the number
of steps, since each step consumes at least one character. -/
def replaceAll (pat rep : List Char) (s : List Char) : List Char :=
  replaceAllGo pat rep s.length s

/-- The placeholder token: the literal `"FUZZ"` in
`raw_request.replace("FUZZ", word)`. -/
def fuzzToken : List Char := ['F', 'U', 'Z', 'Z']

/-! ## UTF-8 lossy decoding (`String::from_utf8_lossy`) -/

/-- U+FFFD REPLACEMENT CHARACTER. -/
def replacementChar : Char := Char.ofNat 0xFFFD

/-- Lower bound of the second byte of a multi-byte UTF-8 sequence. -/
def utf8SecondLo (b : Nat) : Nat :=
  if b = 0xE0 then 0xA0 else if b = 0xF0 then 0x90 else 0x80

/-- Upper bound of the second byte of a multi-byte UTF-8 sequence. -/
def utf8SecondHi (b : Nat) : Nat :=
  if b = 0xED then 0x9F else if b = 0xF4 then 0x8F else 0xBF

/-- Rust's `String::from_utf8_lossy`: decode UTF-8, replacing each maximal
ill-formed subpart by U+FFFD (never rejecting the input). -/
def utf8LossyDecode : List Nat → List Char
  | [] => []
  | b :: rest =>
    if b < 0x80 then Char.ofNat b :: utf8LossyDecode rest
    else if 0xC2 ≤ b ∧ b ≤ 0xDF then
      match rest with
      | [] => [replacementChar]
      | b2 :: r2 =>
        if 0x80 ≤ b2 ∧ b2 ≤ 0xBF then
          Char.ofNat ((b % 0x20) * 0x40 + b2 % 0x40) :: utf8LossyDecode r2
        else replacementChar :: utf8LossyDecode (b2 :: r2)
    else if 0xE0 ≤ b ∧ b ≤ 0xEF then
      match rest with
      | [] => [replacementChar]
      | b2 :: r2 =>
        if utf8SecondLo b ≤ b2 ∧ b2 ≤ utf8SecondHi b then
          match r2 with
          | [] => [replacementChar]
          | b3 :: r3 =>
            if 0x80 ≤ b3 ∧ b3 ≤ 0xBF then
              Char.ofNat ((b % 0x10) * 0x1000 + (b2 % 0x40) * 0x40 + b3 % 0x40) ::
                utf8LossyDecode r3
            else replacementChar :: utf8LossyDecode (b3 :: r3)
        else replacementChar :: utf8LossyDecode (b2 :: r2)
    else if 0xF0 ≤ b ∧ b ≤ 0xF4 then
      match rest with
      | [] => [replacementChar]
      | b2 :: r2 =>
        if utf8SecondLo b ≤ b2 ∧ b2 ≤ utf8SecondHi b then
          match r2 with
          | [] => [replacementChar]
          | b3 :: r3 =>
            if 0x80 ≤ b3 ∧ b3 ≤ 0xBF then
              match r3 with
              | [] => [replacementChar]
              | b4 :: r4 =>
                if 0x80 ≤ b4 ∧ b4 ≤ 0xBF then
                  Char.ofNat ((b % 8) * 0x40000 + (b2 % 0x40) * 0x1000 +
                      (b3 % 0x40) * 0x40 + b4 % 0x40) :: utf8LossyDecode r4
                else replacementChar :: utf8LossyDecode (b4 :: r4)
            else replacementChar :: utf8LossyDecode (b3 :: r3)
        else replacementChar :: utf8LossyDecode (b2 :: r2)
    else replacementChar :: utf8LossyDecode rest

/-- ASCII text as raw bytes; used to state concrete scenarios. -/
def asciiBytes (s : String) : List Nat := s.data.map Char.toNat

/-! ## The `httparse` request-head parser

The engine parses the substituted skeleton with
`httparse::Request::new(&mut [httparse::EMPTY_HEADER; 64])` and unwraps the
result twice (`req.parse(&raw_request).unwrap().unwrap()`), so an error or a
partial parse is a panic.  `parseHead` models the successful parses: request
line, then header lines until a blank line, at most 64 headers, line
terminators `\r\n` or bare `\n`.  The returned `body` field is the remainder
of the input after the blank line, exactly `raw_request[bytes_read..]`. -/

/-- One head line: text before the first newline (one `'\r'` before the
`'\n'` stripped) and the remainder after the newline. -/
def takeLine (s : List Char) : Option (List Char × List Char) :=
  (splitAtNl s).map (fun p => (stripCR p.1, p.2))

/-- `HTTP/1.1` or `HTTP/1.0` version text of a request line. -/
def versionOk (v : List Char) : Bool :=
  v = ['H', 'T', 'T', 'P', '/', '1', '.', '1'] ∨
    v = ['H', 'T', 'T', 'P', '/', '1', '.', '0']

/-- Parse `METHOD SP PATH SP VERSION` into method and path. -/
def parseRequestLine (l : List Char) : Option (List Char × List Char) :=
  match l.splitOn ' ' with
  | [m, p, v] =>
    if m.isEmpty || p.isEmpty || !versionOk v then none else some (m, p)
  | _ => none

/-- Split a header line at its first `':'`. -/
def splitAtColon : List Char → Option (List Char × List Char)
  | [] => none
  | c :: t =>
    if c = ':' then some ([], t)
    else (splitAtColon t).map (fun p => (c :: p.1, p.2))

/-- Parse `Name: value`, skipping leading spaces and tabs of the value. -/
def parseHeaderLine (l : List Char) : Option (List Char × List Char) :=
  match splitAtColon l with
  | none => none
  | some (n, v) =>
    if n.isEmpty then none
    else some (n, v.dropWhile (fun c => c = ' ' || c = '\t'))

/-- Parse header lines until a blank line, with `cap` free header slots
remaining (`httparse` fails with `TooManyHeaders` when the 64 slots are
exhausted).  Returns the header list and the remainder after the blank
line. -/
def parseHeadersGo :
    Nat → Nat → List Char → Option (List (List Char × List Char) × List Char)
  | _, 0, _ => none
  | cap, fuel + 1, s =>
    match takeLine s with
    | none => none
    | some (line, rest) =>
      if line.isEmpty then some ([], rest)
      else if cap = 0 then none
      else
        match parseHeaderLine line with
        | none => none
        | some hd =>
          (parseHeadersGo (cap - 1) fuel rest).map (fun p => (hd :: p.1, p.2))

/-- Entry point of the header-block parse: the fuel `s.length + 1` dominates
the number of lines, since each line consumes at least one character. -/
def parseHeaders (cap : Nat) (s : List Char) :
    Option (List (List Char × List Char) × List Char) :=
  parseHeadersGo cap (s.length + 1) s

/-- Result of a successful `httparse` head parse: method, path, ordered
header list and the raw remainder after the blank line. -/
structure ParsedHead where
  method : List Char
  path : List Char
  headers : List (List Char × List Char)
  body : List Char
deriving DecidableEq, Repr

/-- The whole head parse performed by `http_brute_force` on the substituted
skeleton. -/
def parseHead (s : List Char) : Option ParsedHead :=
  match takeLine s with
  | none => none
  | some (rl, r1) =>
    match parseRequestLine rl with
    | none => none
    | some (m, p) =>
      match parseHeaders 64 r1 with
      | none => none
      | some (hs, rest) => some ⟨m, p, hs, rest⟩

/-! ## The template materializer -/

/-- A materialized outbound request (`reqwest::Request`): method, joined
URL, headers, body bytes.  The URL is kept abstract as text produced by the
`urlJoin` oracle.  Headers are kept as the parsed ordered list; the code's
`HashMap` merge of duplicate header names (last occurrence wins) is not
modelled, since no property below depends on it and it can only shrink the
header count. -/
structure CandidateRequest where
  method : List Char
  url : List Char
  headers : List (List Char × List Char)
  body : List Char
deriving DecidableEq, Repr

/-- The substituted skeleton:
`String::from_utf8_lossy(&raw_request).trim_end().replace("FUZZ", word)`. -/
def substituted (tmpl : List Nat) (word : List Char) : List Char :=
  replaceAll fuzzToken word (rustTrimEnd (utf8LossyDecode tmpl))

/-- One iteration of the producer loop of `http_brute_force`: substitute the
entry into the skeleton, parse the head, join the path against the base
target, and take the body as `raw_request[bytes_read..]`.  `urlJoin` models
the external `reqwest::Url::parse(&target)?.join(path)` call (both unwraps);
`none` anywhere means the corresponding `unwrap` panics and the run
aborts. -/
def materialize (urlJoin : List Char → List Char → Option (List Char))
    (target : List Char) (tmpl : List Nat) (word : List Char) :
    Option CandidateRequest :=
  match parseHead (substituted tmpl word) with
  | none => none
  | some pr =>
    match urlJoin target pr.path with
    | none => none
    | some u => some ⟨pr.method, u, pr.headers, pr.body⟩

/-! ## The result collector -/

/-- The status check: `response.status().as_u16() != status`. -/
def statusFails : Option Nat → Nat → Bool
  | some st, s => s ≠ st
  | none, _ => false

/-- The required-substring check: `!body_string.contains(&body_content)`. -/
def requiredFails : Option (List Char) → List Char → Bool
  | some pat, bs => !containsSub bs pat
  | none, _ => false

/-- The forbidden-substring check: `body_string.contains(&not_body_content)`. -/
def forbiddenFails : Option (List Char) → List Char → Bool
  | some pat, bs => containsSub bs pat
  | none, _ => false

/-- The collector's verdict for one received response, mirroring the check
sequence of `http_brute_force`: status first, then the required substring,
then the forbidden substring, each short-circuiting to FAILED; the body is
decoded with `String::from_utf8_lossy` before substring search. -/
def classify (crit : SuccessCriteria) (resp : HttpResponse) : Verdict :=
  if statusFails crit.status resp.status then Verdict.failed
  else
    let bodyString := utf8LossyDecode resp.body
    if requiredFails crit.body bodyString then Verdict.failed
    else if forbiddenFails crit.notBody bodyString then Verdict.failed
    else Verdict.success

/-- One iteration of the collector loop applied to one received outcome.
`let response = response_result.unwrap();` panics on a transport-failure
outcome, which is modelled by `none`; a received response yields the tagged
verdict that the collector prints. -/
def collectorProcessOne (crit : SuccessCriteria)
    (o : Except TransportErr HttpResponse × List Char) :
    Option (List Char × Verdict) :=
  match o.1 with
  | Except.error _ => none
  | Except.ok resp => some (o.2, classify crit resp)

/-- What the collector task did: finished its `for _ in 0..req_count` loop,
panicked partway (on a transport-failure outcome), or ran out of outcomes
and blocked forever.  In each case `emitted` lists the verdicts printed
before that point, in processing order. -/
inductive CollectorResult where
  | done (emitted : List (List Char × Verdict))
  | panicked (emitted : List (List Char × Verdict))
  | starved (emitted : List (List Char × Verdict))
deriving DecidableEq, Repr

/-- The collector loop: consume exactly `count` outcomes from the stream,
emitting one verdict per received response and panicking on a
transport-failure outcome. -/
def collectorRun (crit : SuccessCriteria) :
    Nat → List (Except TransportErr HttpResponse × List Char) → CollectorResult
  | 0, _ => CollectorResult.done []
  | _ + 1, [] => CollectorResult.starved []
  | n + 1, o :: rest =>
    match collectorProcessOne crit o with
    | none => CollectorResult.panicked []
    | some v =>
      match collectorRun crit n rest with
      | CollectorResult.done vs => CollectorResult.done (v :: vs)
      | CollectorResult.panicked vs => CollectorResult.panicked (v :: vs)
      | CollectorResult.starved vs => CollectorResult.starved (v :: vs)

/-! ## The lane retry loop -/

/-- Boolean success test of an attempt result (`result.is_ok()`). -/
def exceptIsOk : Except TransportErr HttpResponse → Bool
  | Except.ok _ => true
  | Except.error _ => false

/-- Outcome of the execution of one request by a lane: final result, number
of attempts actually made, and the backoff sleeps (in milliseconds)
performed between attempts. -/
structure LaneExec where
  result : Except TransportErr HttpResponse
  attempts : Nat
  sleeps : List Nat
deriving Repr

/-- The retry loop `for _retry in 0..3 { if result.is_ok() { break; }
sleep(1s); result = client.execute(req); }`.  `oracle k` is the result of
attempt number `k` (the transport is external); `made` counts attempts
already made, `fuel` the remaining loop iterations. -/
def retryLoop (oracle : Nat → Except TransportErr HttpResponse) :
    Nat → Except TransportErr HttpResponse → Nat → List Nat → LaneExec
  | 0, res, made, sleeps => ⟨res, made, sleeps⟩
  | fuel + 1, res, made, sleeps =>
    match res with
    | Except.ok r => ⟨Except.ok r, made, sleeps⟩
    | Except.error _ =>
      retryLoop oracle fuel (oracle made) (made + 1) (sleeps ++ [1000])

/-- A lane's execution of one request: the initial attempt followed by the
retry loop with at most 3 retries. -/
def runAttempts (oracle : Nat → Except TransportErr HttpResponse) : LaneExec :=
  retryLoop oracle 3 (oracle 0) 1 []

/-- What the lane sends on the outcome queue after the retry loop:
`responses_tx.send((result, word))`. -/
def lanePublish (oracle : Nat → Except TransportErr HttpResponse)
    (word : List Char) : Except TransportErr HttpResponse × List Char :=
  ((runAttempts oracle).result, word)

/-! ## Per-lane pacing

Each lane keeps `last_request`, initialised to `Instant::now() - 1s`, and on
receiving a request sleeps for `1000 - elapsed` ms when less than 1000 ms
have passed since `last_request`; after the execution finishes it sets
`last_request = Instant::now()`.  Time is modelled in integer milliseconds,
with the run starting at time 0 (so the initial `last_request` is `-1000`).
A lane's input is a list of `(receiveTime, executionDuration)` pairs; the
execution duration covers the `client.execute` call including retries. -/

/-- The moment the lane starts executing after the pacing check performed at
the receive time `r`: it sleeps until `last + 1000` when less than 1000 ms
have elapsed since `last`, else proceeds at once. -/
def laneStart (last r : Int) : Int :=
  if r - last < 1000 then last + 1000 else r

/-- The `(start, completion)` schedule of one lane, threading
`last_request` (set to the completion time of each request). -/
def laneRun (last : Int) : List (Int × Int) → List (Int × Int)
  | [] => []
  | (r, d) :: rest =>
    (laneStart last r, laneStart last r + d) ::
      laneRun (laneStart last r + d) rest

/-- Well-formed lane input: each request is received no earlier than `tmin`
(initially the run start 0, then the completion of the previous request —
a lane handles one request at a time) and has a nonnegative duration. -/
def validLane : Int → Int → List (Int × Int) → Bool
  | _, _, [] => true
  | last, tmin, (r, d) :: rest =>
    tmin ≤ r && 0 ≤ d &&
      validLane (laneStart last r + d) (laneStart last r + d) rest

/-- A schedule is paced after `last`: every execution starts at least
1000 ms after the recorded timestamp of the previous one and completes no
earlier than it starts. -/
def paced : Int → List (Int × Int) → Bool
  | _, [] => true
  | last, (s, c) :: rest => last + 1000 ≤ s && s ≤ c && paced c rest

/-- Latest completion time of a schedule, at least `t`. -/
def lastCompletionFrom (t : Int) (sched : List (Int × Int)) : Int :=
  (sched.map Prod.snd).foldl max t

/-- The initial `last_request` value:
`Instant::now().checked_sub(Duration::from_secs(1))`. -/
def initLast : Int := -1000

/-- Completion time of a whole lane, run from the start of the run. -/
def laneFinish (l : List (Int × Int)) : Int :=
  lastCompletionFrom 0 (laneRun initLast l)

/-- Wall time of a run in which lane `i` handles the request list
`lanes[i]`: the latest lane completion (at least 0). -/
def runMakespan (lanes : List (List (Int × Int))) : Int :=
  (lanes.map laneFinish).foldl max 0

/-- Total number of requests of a run, `M`. -/
def totalRequests (lanes : List (List (Int × Int))) : Nat :=
  (lanes.map List.length).sum

/-! ## The whole run

`runModel` strings the pieces together, mirroring the control flow of
`http_brute_force` and `rate_limiting_requests`:

* the wordlist is split and trimmed;
* the producer loop materializes and submits entries in wordlist order,
  panicking (`unwrap`) at the first entry that fails to materialize — if
  that is the very first entry, nothing was ever dispatched;
* `rate_limiting_requests(rate)` spawns exactly `rate` lane tasks
  (`for _ in 0..reqs_per_sec`), each holding a clone of the submission
  queue's receiver; the original receiver is dropped when the function
  returns.  With `rate = 0` no clone was ever made, so the submission
  channel is closed, `async_channel::Sender::send` returns an error
  immediately, and the producer's very first `send(..).unwrap()` panics:
  the run aborts before any request was handed to a lane;
* otherwise every submission is executed by some lane (with retries) and
  the collector consumes one outcome per wordlist entry.

Outcomes are modelled in submission order; the real completion order is an
arbitrary interleaving, which no claim below depends on. -/

/-- The producer loop: materialize and submit each entry in order.  `k` is
the index of the first entry; `Except.error j` means the producer panicked
at entry `j` (`.unwrap()` on a failed parse or URL join). -/
def producerGo (urlJoin : List Char → List Char → Option (List Char))
    (target : List Char) (tmpl : List Nat) :
    Nat → List (List Char) → Except Nat (List (CandidateRequest × List Char))
  | _, [] => Except.ok []
  | k, w :: ws =>
    match materialize urlJoin target tmpl w with
    | none => Except.error k
    | some c =>
      match producerGo urlJoin target tmpl (k + 1) ws with
      | Except.error j => Except.error j
      | Except.ok rs => Except.ok ((c, w) :: rs)

/-- Outcomes delivered to the collector: one per submission, each the
published result of a lane's retried execution.  `oracle i k` is the
transport result of attempt `k` of request `i`. -/
def outcomesOf (oracle : Nat → Nat → Except TransportErr HttpResponse)
    (subs : List (CandidateRequest × List Char)) :
    List (Except TransportErr HttpResponse × List Char) :=
  subs.enum.map (fun p => lanePublish (oracle p.1) p.2.2)

/-- Observable behaviour of one whole run. -/
inductive RunBehavior where
  | fatal
  | fatalSend
  | fatalAt (k : Nat)
  | completes (result : CollectorResult)
deriving DecidableEq, Repr

/-- The whole run.  `fatal`: the process panicked at the very first
materialization, before anything was dispatched and before any verdict.
`fatalSend`: the producer panicked at its first submission — with zero
lanes the submission channel has no receiver left, so the first
`send(..).unwrap()` fails; the run aborts before any dispatch, with no
verdicts.  `fatalAt k`: the producer panicked at entry `k > 0`, after
dispatch had begun.  `completes r`: the producer submitted everything and
the collector ran to `r`. -/
def runModel (urlJoin : List Char → List Char → Option (List Char))
    (target : List Char) (tmpl : List Nat) (rate : Nat)
    (contents : List Char) (crit : SuccessCriteria)
    (oracle : Nat → Nat → Except TransportErr HttpResponse) : RunBehavior :=
  match wordlistEntries contents with
  | [] => RunBehavior.completes (CollectorResult.done [])
  | w0 :: ws =>
    match materialize urlJoin target tmpl w0 with
    | none => RunBehavior.fatal
    | some _ =>
      if rate = 0 then RunBehavior.fatalSend
      else
        match producerGo urlJoin target tmpl 0 (w0 :: ws) with
        | Except.error k => RunBehavior.fatalAt k
        | Except.ok subs =>
          RunBehavior.completes
            (collectorRun crit (w0 :: ws).length (outcomesOf oracle subs))

/-- Decimal value of a nonempty all-digit string. -/
def digitsToNat (l : List Char) : Option Nat :=
  if !l.isEmpty && l.all Char.isDigit then
    some (l.foldl (fun a c => a * 10 + (c.toNat - 48)) 0)
  else none

/-- Spec-side definition (following the specification's words, for claim
C2): the `Content-Length` declared by a materialized request's header list,
against which the claim's Content-Length-bounded body policy is compared.
The code itself never reads this header. -/
def specDeclaredContentLength
    (hs : List (List Char × List Char)) : Option Nat :=
  match hs.find? (fun h => h.1 = "Content-Length".data) with
  | none => none
  | some h => digitsToNat h.2

/-! ## Helper lemmas: the retry loop -/

theorem runAttempts_ok0 {oracle : Nat → Except TransportErr HttpResponse}
    {r : HttpResponse} (h0 : oracle 0 = Except.ok r) :
    runAttempts oracle = ⟨Except.ok r, 1, []⟩ := by
  unfold runAttempts
  rw [h0]
  exact rfl

theorem runAttempts_ok1 {oracle : Nat → Except TransportErr HttpResponse}
    {e0 : TransportErr} {r : HttpResponse}
    (h0 : oracle 0 = Except.error e0) (h1 : oracle 1 = Except.ok r) :
    runAttempts oracle = ⟨Except.ok r, 2, [1000]⟩ := by
  unfold runAttempts
  rw [h0]
  have step : retryLoop oracle 3 (Except.error e0) 1 [] =
      retryLoop oracle 2 (oracle 1) 2 [1000] := rfl
  rw [step, h1]
  exact rfl

theorem runAttempts_ok2 {oracle : Nat → Except TransportErr HttpResponse}
    {e0 e1 : TransportErr} {r : HttpResponse}
    (h0 : oracle 0 = Except.error e0) (h1 : oracle 1 = Except.error e1)
    (h2 : oracle 2 = Except.ok r) :
    runAttempts oracle = ⟨Except.ok r, 3, [1000, 1000]⟩ := by
  unfold runAttempts
  rw [h0]
  have s1 : retryLoop oracle 3 (Except.error e0) 1 [] =
      retryLoop oracle 2 (oracle 1) 2 [1000] := rfl
  rw [s1, h1]
  have s2 : retryLoop oracle 2 (Except.error e1) 2 [1000] =
      retryLoop oracle 1 (oracle 2) 3 [1000, 1000] := rfl
  rw [s2, h2]
  exact rfl

theorem runAttempts_err3 {oracle : Nat → Except TransportErr HttpResponse}
    {e0 e1 e2 : TransportErr}
    (h0 : oracle 0 = Except.error e0) (h1 : oracle 1 = Except.error e1)
    (h2 : oracle 2 = Except.error e2) :
    runAttempts oracle = ⟨oracle 3, 4, [1000, 1000, 1000]⟩ := by
  unfold runAttempts
  rw [h0]
  have s1 : retryLoop oracle 3 (Except.error e0) 1 [] =
      retryLoop oracle 2 (oracle 1) 2 [1000] := rfl
  rw [s1, h1]
  have s2 : retryLoop oracle 2 (Except.error e1) 2 [1000] =
      retryLoop oracle 1 (oracle 2) 3 [1000, 1000] := rfl
  rw [s2, h2]
  have s3 : retryLoop oracle 1 (Except.error e2) 3 [1000, 1000] =
      retryLoop oracle 0 (oracle 3) 4 [1000, 1000, 1000] := rfl
  rw [s3]
  rfl

/-! ## Helper lemmas: the collector -/

theorem collectorRun_all_ok (crit : SuccessCriteria) :
    ∀ outs : List (Except TransportErr HttpResponse × List Char),
      (∀ o ∈ outs, exceptIsOk o.1 = true) →
      ∃ vs, collectorRun crit outs.length outs = CollectorResult.done vs ∧
        vs.map Prod.fst = outs.map Prod.snd := by
  intro outs
  induction outs with
  | nil => intro _; exact ⟨[], rfl, rfl⟩
  | cons o rest ih =>
    intro hok
    obtain ⟨resp, hresp⟩ : ∃ resp, o.1 = Except.ok resp := by
      have := hok o (by simp)
      cases h : o.1 with
      | ok r => exact ⟨r, rfl⟩
      | error e => rw [h] at this; simp [exceptIsOk] at this
    obtain ⟨vs, hvs, hmap⟩ := ih (fun x hx => hok x (by simp [hx]))
    refine ⟨(o.2, classify crit resp) :: vs, ?_, by simp [hmap]⟩
    simp only [List.length_cons, collectorRun, collectorProcessOne, hresp, hvs]

/-! ## Claim theorems -/

/-- Claim C4 (confirmed): an execution attempt is retried only on transport
failure — never once a response was received, whatever its status — with at
most 3 retries after the initial attempt (at most 4 attempts, never a 5th)
and a fixed 1000 ms backoff before each retry; a request whose attempts all
fail is published as a failure outcome (the final attempt's error), not
dropped and not retried further. -/
theorem C4_claim : ∀ oracle : Nat → Except TransportErr HttpResponse,
    (runAttempts oracle).attempts ≤ 4
    ∧ (∀ k, k + 1 < (runAttempts oracle).attempts → exceptIsOk (oracle k) = false)
    ∧ (runAttempts oracle).result = oracle ((runAttempts oracle).attempts - 1)
    ∧ (runAttempts oracle).sleeps =
        List.replicate ((runAttempts oracle).attempts - 1) 1000
    ∧ ((∀ k, k < 4 → exceptIsOk (oracle k) = false) →
        (runAttempts oracle).attempts = 4
        ∧ exceptIsOk (runAttempts oracle).result = false) := by
  intro oracle
  rcases h0 : oracle 0 with e0 | r0
  · rcases h1 : oracle 1 with e1 | r1
    · rcases h2 : oracle 2 with e2 | r2
      · rw [runAttempts_err3 h0 h1 h2]
        refine ⟨by simp, ?_, by simp, by simp [List.replicate], ?_⟩
        · intro k hk
          simp only at hk
          have : k = 0 ∨ k = 1 ∨ k = 2 := by omega
          rcases this with h | h | h <;> subst h <;>
            simp [h0, h1, h2, exceptIsOk]
        · intro hall
          exact ⟨rfl, hall 3 (by omega)⟩
      · rw [runAttempts_ok2 h0 h1 h2]
        refine ⟨by simp, ?_, by simp [h2], by simp [List.replicate], ?_⟩
        · intro k hk
          simp only at hk
          have : k = 0 ∨ k = 1 := by omega
          rcases this with h | h <;> subst h <;> simp [h0, h1, exceptIsOk]
        · intro hall
          have := hall 2 (by omega)
          rw [h2] at this
          simp [exceptIsOk] at this
    · rw [runAttempts_ok1 h0 h1]
      refine ⟨by simp, ?_, by simp [h1], by simp [List.replicate], ?_⟩
      · intro k hk
        simp only at hk
        have : k = 0 := by omega
        subst this
        simp [h0, exceptIsOk]
      · intro hall
        have := hall 1 (by omega)
        rw [h1] at this
        simp [exceptIsOk] at this
  · rw [runAttempts_ok0 h0]
    refine ⟨by simp, ?_, by simp [h0], by simp, ?_⟩
    · intro k hk
      simp only at hk
      omega
    · intro hall
      have := hall 0 (by omega)
      rw [h0] at this
      simp [exceptIsOk] at this

/-- Witness for C4 at the always-failing transport. -/
theorem C4_witness :
    (runAttempts (fun _ => Except.error TransportErr.mk)).attempts = 4
    ∧ exceptIsOk (runAttempts (fun _ => Except.error TransportErr.mk)).result
        = false :=
  (C4_claim (fun _ => Except.error TransportErr.mk)).2.2.2.2
    (fun _ _ => rfl)

/-- Claim C3 (confirmed): for every received response the verdict is SUCCESS
iff every configured check passes — status equality, then required-substring
presence, then forbidden-substring absence, short-circuiting to FAILED on
the first failing check (the check sequence of `classify`); the body is
decoded permissively with `from_utf8_lossy` (an invalid byte becomes U+FFFD,
it is never rejected) before substring search, and with no checks configured
the verdict is SUCCESS. -/
theorem C3_claim : ∀ (crit : SuccessCriteria) (resp : HttpResponse)
    (w : List Char),
    collectorProcessOne crit (Except.ok resp, w) = some (w, classify crit resp)
    ∧ (classify crit resp = Verdict.success ↔
        ((∀ st, crit.status = some st → resp.status = st)
         ∧ (∀ p, crit.body = some p →
             containsSub (utf8LossyDecode resp.body) p = true)
         ∧ (∀ p, crit.notBody = some p →
             containsSub (utf8LossyDecode resp.body) p = false)))
    ∧ utf8LossyDecode [0xFF] = [replacementChar] := by
  intro crit resp w
  refine ⟨rfl, ?_, by decide⟩
  have key : ∀ a b c : Bool,
      (if a = true then Verdict.failed
       else if b = true then Verdict.failed
       else if c = true then Verdict.failed
       else Verdict.success) = Verdict.success ↔
        (a = false ∧ b = false ∧ c = false) := by
    intro a b c
    cases a <;> cases b <;> cases c <;> simp
  have hs : statusFails crit.status resp.status = false ↔
      (∀ st, crit.status = some st → resp.status = st) := by
    cases crit.status <;> simp [statusFails]
  have hb : requiredFails crit.body (utf8LossyDecode resp.body) = false ↔
      (∀ p, crit.body = some p →
        containsSub (utf8LossyDecode resp.body) p = true) := by
    cases crit.body <;> simp [requiredFails]
  have hnb : forbiddenFails crit.notBody (utf8LossyDecode resp.body) = false ↔
      (∀ p, crit.notBody = some p →
        containsSub (utf8LossyDecode resp.body) p = false) := by
    cases crit.notBody <;> simp [forbiddenFails]
  rw [← hs, ← hb, ← hnb]
  simp only [classify]
  exact key _ _ _

/-- Witness for C3: a 200 response whose body contains "ok" and not "bad",
against fully configured criteria. -/
theorem C3_witness :
    classify ⟨some 200, some ['o', 'k'], some ['b', 'a', 'd']⟩
        ⟨200, asciiBytes "all ok"⟩ = Verdict.success ↔
      ((∀ st, (some 200 : Option Nat) = some st → 200 = st)
       ∧ (∀ p, (some ['o', 'k'] : Option (List Char)) = some p →
           containsSub (utf8LossyDecode (asciiBytes "all ok")) p = true)
       ∧ (∀ p, (some ['b', 'a', 'd'] : Option (List Char)) = some p →
           containsSub (utf8LossyDecode (asciiBytes "all ok")) p = false)) :=
  (C3_claim ⟨some 200, some ['o', 'k'], some ['b', 'a', 'd']⟩
      ⟨200, asciiBytes "all ok"⟩ ['a']).2.1

/-- Counterexample to claim C1 as stated: an outcome that exhausted its
retries with a transport failure does not make the Result Collector emit a
FAILURE verdict tagged with the entry's text — the collector's
`response_result.unwrap()` panics instead (`none`), aborting the run with
no verdict for that entry. -/
theorem C1_counterexample :
    collectorProcessOne ⟨none, none, none⟩
        (Except.error TransportErr.mk, ['a']) = none
    ∧ (none : Option (List Char × Verdict)) ≠ some (['a'], Verdict.failed) :=
  ⟨rfl, by simp⟩

/-- Claim C1 (corrected): when every attempt fails with a transport error,
the lane does publish a failure outcome tagged with the entry's text (the
entry is never dropped by the lane); but the Result Collector panics on the
transport-failure outcome instead of emitting a FAILURE verdict, so the run
aborts (or deadlocks, if entries are still queued) and that entry gets no
verdict. -/
theorem C1_claim : ∀ (oracle : Nat → Except TransportErr HttpResponse)
    (w : List Char) (crit : SuccessCriteria) (e : TransportErr),
    ((∀ k, k < 4 → exceptIsOk (oracle k) = false) →
      ∃ e2, lanePublish oracle w = (Except.error e2, w))
    ∧ collectorProcessOne crit (Except.error e, w) = none := by
  intro oracle w crit e
  constructor
  · intro hall
    have h0 : ∃ e0, oracle 0 = Except.error e0 := by
      have := hall 0 (by omega)
      cases h : oracle 0 with
      | ok r => rw [h] at this; simp [exceptIsOk] at this
      | error e0 => exact ⟨e0, rfl⟩
    have h1 : ∃ e1, oracle 1 = Except.error e1 := by
      have := hall 1 (by omega)
      cases h : oracle 1 with
      | ok r => rw [h] at this; simp [exceptIsOk] at this
      | error e1 => exact ⟨e1, rfl⟩
    have h2 : ∃ e2, oracle 2 = Except.error e2 := by
      have := hall 2 (by omega)
      cases h : oracle 2 with
      | ok r => rw [h] at this; simp [exceptIsOk] at this
      | error e2 => exact ⟨e2, rfl⟩
    have h3 : ∃ e3, oracle 3 = Except.error e3 := by
      have := hall 3 (by omega)
      cases h : oracle 3 with
      | ok r => rw [h] at this; simp [exceptIsOk] at this
      | error e3 => exact ⟨e3, rfl⟩
    obtain ⟨e0, h0⟩ := h0
    obtain ⟨e1, h1⟩ := h1
    obtain ⟨e2, h2⟩ := h2
    obtain ⟨e3, h3⟩ := h3
    refine ⟨e3, ?_⟩
    unfold lanePublish
    rw [runAttempts_err3 h0 h1 h2, h3]
  · rfl

/-- Witness for C1 at the always-failing transport. -/
theorem C1_witness :
    (∃ e2, lanePublish (fun _ => Except.error TransportErr.mk) ['a'] =
        (Except.error e2, ['a']))
    ∧ collectorProcessOne ⟨some 200, none, none⟩
        (Except.error TransportErr.mk, ['a']) = none :=
  ⟨(C1_claim (fun _ => Except.error TransportErr.mk) ['a']
      ⟨some 200, none, none⟩ TransportErr.mk).1 (fun _ _ => rfl),
   (C1_claim (fun _ => Except.error TransportErr.mk) ['a']
      ⟨some 200, none, none⟩ TransportErr.mk).2⟩

/-- Counterexample to claim C5 as stated: in a run whose single entry "a"
ends in a transport failure the collector panics before emitting anything,
so no verdict tagged "a" is ever emitted and the collector does not
terminate normally. -/
theorem C5_counterexample :
    collectorRun ⟨none, none, none⟩ 1
        [(Except.error TransportErr.mk, ['a'])] = CollectorResult.panicked []
    ∧ CollectorResult.panicked ([] : List (List Char × Verdict)) ≠
        CollectorResult.done [(['a'], Verdict.failed)] :=
  ⟨rfl, by simp⟩

/-- Claim C5 (corrected): provided every outcome is a successfully received
response, the collector consumes exactly one outcome per wordlist entry
(the count fixed in advance by the wordlist length), terminates, and emits
exactly one verdict per entry, tagged with that entry's text (the emitted
tags are a permutation of the wordlist).  When some outcome is a transport
failure this breaks down: the collector panics and the affected entries get
no verdict. -/
theorem C5_claim : ∀ (crit : SuccessCriteria)
    (outs : List (Except TransportErr HttpResponse × List Char))
    (words : List (List Char)),
    List.Perm (outs.map Prod.snd) words →
    (∀ o ∈ outs, exceptIsOk o.1 = true) →
    ∃ vs, collectorRun crit words.length outs = CollectorResult.done vs
      ∧ List.Perm (vs.map Prod.fst) words ∧ vs.length = words.length := by
  intro crit outs words hperm hok
  have hlen : words.length = outs.length := by
    have := hperm.length_eq
    simpa using this.symm
  obtain ⟨vs, hvs, hmap⟩ := collectorRun_all_ok crit outs hok
  refine ⟨vs, by rw [hlen]; exact hvs, ?_, ?_⟩
  · rw [hmap]; exact hperm
  · have : (vs.map Prod.fst).length = (outs.map Prod.snd).length := by
      rw [hmap]
    simp only [List.length_map] at this
    omega

/-- Witness for C5: two all-received outcomes arriving in the reverse of
wordlist order. -/
theorem C5_witness :
    ∃ vs, collectorRun ⟨some 200, none, none⟩
        ([['b'], ['a']] : List (List Char)).length
        [(Except.ok ⟨200, []⟩, ['a']), (Except.ok ⟨404, []⟩, ['b'])] =
        CollectorResult.done vs
      ∧ List.Perm (vs.map Prod.fst) [['b'], ['a']] ∧ vs.length = 2 :=
  C5_claim ⟨some 200, none, none⟩
    [(Except.ok ⟨200, []⟩, ['a']), (Except.ok ⟨404, []⟩, ['b'])]
    [['b'], ['a']] (by decide) (by decide)


/-! ## Helper lemmas: `str::replace` -/

theorem replaceAllGo_irrel (pat rep : List Char) :
    ∀ f1 f2 (s : List Char), s.length ≤ f1 → s.length ≤ f2 →
      replaceAllGo pat rep f1 s = replaceAllGo pat rep f2 s := by
  intro f1
  induction f1 with
  | zero =>
    intro f2 s h1 _
    have : s = [] := List.eq_nil_of_length_eq_zero (Nat.le_zero.mp h1)
    subst this
    cases f2 <;> rfl
  | succ f1 ih =>
    intro f2 s h1 h2
    cases s with
    | nil => cases f2 <;> rfl
    | cons c rest =>
      cases f2 with
      | zero => simp at h2
      | succ f2 =>
        simp only [replaceAllGo]
        by_cases hcond : isPrefixList pat (c :: rest) && !pat.isEmpty
        · rw [if_pos hcond, if_pos hcond]
          have hpat : 1 ≤ pat.length := by
            rcases Bool.and_eq_true .. |>.mp hcond with ⟨_, hne⟩
            cases pat with
            | nil => simp at hne
            | cons _ _ => simp
          have hdrop : ((c :: rest).drop pat.length).length ≤ f1 := by
            simp only [List.length_drop, List.length_cons]
            simp only [List.length_cons] at h1
            omega
          have hdrop2 : ((c :: rest).drop pat.length).length ≤ f2 := by
            simp only [List.length_drop, List.length_cons]
            simp only [List.length_cons] at h2
            omega
          rw [ih f2 _ hdrop hdrop2]
        · rw [if_neg hcond, if_neg hcond]
          simp only [List.length_cons] at h1 h2
          rw [ih f2 rest (by omega) (by omega)]

theorem replaceAll_cons_pos {c : Char} {rest : List Char} (w : List Char)
    (h : isPrefixList fuzzToken (c :: rest) = true) :
    replaceAll fuzzToken w (c :: rest) =
      w ++ replaceAll fuzzToken w ((c :: rest).drop 4) := by
  unfold replaceAll
  simp only [List.length_cons, replaceAllGo]
  rw [if_pos (show (isPrefixList fuzzToken (c :: rest) && !fuzzToken.isEmpty)
    = true by rw [h]; rfl)]
  congr 1
  have h4 : fuzzToken.length = 4 := rfl
  rw [h4]
  exact replaceAllGo_irrel fuzzToken w rest.length ((c :: rest).drop 4).length
    ((c :: rest).drop 4)
    (by simp only [List.length_drop, List.length_cons]; omega) (le_refl _)

theorem replaceAll_cons_neg {c : Char} {rest : List Char} (w : List Char)
    (h : isPrefixList fuzzToken (c :: rest) = false) :
    replaceAll fuzzToken w (c :: rest) = c :: replaceAll fuzzToken w rest := by
  unfold replaceAll
  simp only [List.length_cons, replaceAllGo]
  rw [if_neg (by simp [h])]

theorem isPrefixList_append_self : ∀ (l m : List Char),
    isPrefixList l (l ++ m) = true := by
  intro l m
  induction l with
  | nil => rfl
  | cons c t ih => simpa [isPrefixList] using ih

theorem isPrefixList_take (p : List Char) :
    ∀ (l m : List Char), p.length ≤ l.length →
      isPrefixList p (l ++ m) = isPrefixList p l := by
  induction p with
  | nil => intro l m _; rfl
  | cons x ps ih =>
    intro l m hlen
    cases l with
    | nil => simp at hlen
    | cons y t =>
      simp only [List.cons_append, isPrefixList, List.append_eq]
      rw [ih t m (by simpa using hlen)]

theorem fuzz_no_straddle : ∀ (a b : List Char), a.length < 4 →
    isPrefixList fuzzToken (a ++ (fuzzToken ++ b)) = true → a = [] := by
  intro a b hlen h
  match a with
  | [] => rfl
  | [c] => simp [fuzzToken, isPrefixList] at h
  | [c, d] => simp [fuzzToken, isPrefixList] at h
  | [c, d, e] => simp [fuzzToken, isPrefixList] at h
  | c :: d :: e :: f :: _ => simp at hlen; omega

theorem containsSub_cons_false {c : Char} {t pat : List Char}
    (h : containsSub (c :: t) pat = false) :
    isPrefixList pat (c :: t) = false ∧ containsSub t pat = false := by
  simpa [containsSub] using h

theorem replaceAll_no_occurrence : ∀ (s : List Char),
    containsSub s fuzzToken = false → ∀ w, replaceAll fuzzToken w s = s := by
  intro s
  induction s with
  | nil => intro _ w; rfl
  | cons c t ih =>
    intro h w
    obtain ⟨h1, h2⟩ := containsSub_cons_false h
    rw [replaceAll_cons_neg w h1, ih h2 w]

theorem replaceAll_first_occurrence : ∀ (a : List Char),
    containsSub a fuzzToken = false → ∀ (w b : List Char),
      replaceAll fuzzToken w (a ++ (fuzzToken ++ b)) =
        a ++ (w ++ replaceAll fuzzToken w b) := by
  intro a
  induction a with
  | nil =>
    intro _ w b
    simp only [List.nil_append]
    have hfz : fuzzToken ++ b = 'F' :: ('U' :: 'Z' :: 'Z' :: b) := rfl
    rw [hfz, replaceAll_cons_pos w (by rw [← hfz]; exact isPrefixList_append_self fuzzToken b)]
    rfl
  | cons c a' ih =>
    intro h w b
    obtain ⟨h1, h2⟩ := containsSub_cons_false h
    have hnp : isPrefixList fuzzToken ((c :: a') ++ (fuzzToken ++ b)) = false := by
      by_contra hcon
      rw [Bool.not_eq_false] at hcon
      by_cases hl : 3 ≤ a'.length
      · rw [isPrefixList_take fuzzToken (c :: a') (fuzzToken ++ b)
          (by simp [fuzzToken]; omega)] at hcon
        rw [h1] at hcon
        exact Bool.false_ne_true hcon
      · have := fuzz_no_straddle (c :: a') b (by simp; omega) hcon
        simp at this
    simp only [List.cons_append] at hnp ⊢
    rw [replaceAll_cons_neg w hnp, ih h2 w b]

/-- Claim C7 (confirmed): materialization substitutes every occurrence of
the placeholder token `FUZZ` in the entire raw skeleton — the substitution
happens on the whole trimmed skeleton text before any parsing, so request
line, header values and body alike — replacing each leftmost occurrence
with the entry's literal text and leaving everything else unchanged; the
substitution is verbatim and non-recursive: it holds for every entry `w`,
including one that itself contains the token, which is inserted as-is. -/
theorem C7_claim : ∀ (w : List Char) (tmpl : List Nat),
    substituted tmpl w =
      replaceAll fuzzToken w (rustTrimEnd (utf8LossyDecode tmpl))
    ∧ (∀ a b, containsSub a fuzzToken = false →
        replaceAll fuzzToken w (a ++ (fuzzToken ++ b)) =
          a ++ (w ++ replaceAll fuzzToken w b))
    ∧ (∀ s, containsSub s fuzzToken = false → replaceAll fuzzToken w s = s)
    ∧ (∀ a b, containsSub a fuzzToken = false →
        containsSub b fuzzToken = false →
        replaceAll fuzzToken w (a ++ (fuzzToken ++ b)) = a ++ (w ++ b)) := by
  intro w tmpl
  refine ⟨rfl, fun a b ha => replaceAll_first_occurrence a ha w b,
    fun s hs => replaceAll_no_occurrence s hs w, fun a b ha hb => ?_⟩
  rw [replaceAll_first_occurrence a ha w b, replaceAll_no_occurrence b hb w]

/-- Witness for C7: the request line of the round-trip scenario, with an
entry that itself contains the token. -/
theorem C7_witness :
    replaceAll fuzzToken "XFUZZX".data
        ("GET /".data ++ (fuzzToken ++ " HTTP/1.1".data)) =
      "GET /".data ++ ("XFUZZX".data ++ " HTTP/1.1".data) :=
  (C7_claim "XFUZZX".data []).2.2.2 "GET /".data " HTTP/1.1".data
    (by decide) (by decide)


/-! ## Helper lemmas: wordlist splitting and trimming -/

theorem linesGo_append_nl : ∀ (pre : List Char), '\n' ∉ pre →
    ∀ (acc post : List Char),
      linesGo acc (pre ++ '\n' :: post) =
        stripCR (acc.reverse ++ pre) :: linesGo [] post := by
  intro pre
  induction pre with
  | nil => intro _ acc post; simp [linesGo]
  | cons c pre' ih =>
    intro hnl acc post
    have hc : ¬c = '\n' := fun hh => hnl (by rw [hh]; exact List.mem_cons_self _ _)
    simp only [List.cons_append, linesGo, if_neg hc, List.append_eq]
    rw [ih (fun hh => hnl (List.mem_cons_of_mem _ hh)) (c :: acc) post]
    simp

theorem rustTrimEnd_decomposition (s : List Char) :
    ∃ wsp, s = rustTrimEnd s ++ wsp ∧ ∀ c ∈ wsp, rustIsWhitespace c = true := by
  refine ⟨(s.reverse.takeWhile rustIsWhitespace).reverse, ?_, ?_⟩
  · unfold rustTrimEnd
    rw [← List.reverse_append, List.takeWhile_append_dropWhile, List.reverse_reverse]
  · intro c hc
    rw [List.mem_reverse] at hc
    exact List.mem_takeWhile_imp hc

theorem head_dropWhile_not (p : Char → Bool) :
    ∀ l : List Char, (l.dropWhile p).head?.all (fun c => !p c) = true := by
  intro l
  induction l with
  | nil => rfl
  | cons c t ih =>
    by_cases hp : p c
    · simpa [List.dropWhile, hp] using ih
    · simp [List.dropWhile, hp]

theorem rustTrimEnd_no_trailing_ws (s : List Char) :
    (rustTrimEnd s).getLast?.all (fun c => !rustIsWhitespace c) = true := by
  unfold rustTrimEnd
  rw [List.getLast?_reverse]
  exact head_dropWhile_not rustIsWhitespace s.reverse

theorem producerGo_ok_map
    (uj : List Char → List Char → Option (List Char)) (tgt : List Char)
    (tmpl : List Nat) : ∀ (ws : List (List Char)) (k : Nat)
      (reqs : List (CandidateRequest × List Char)),
      producerGo uj tgt tmpl k ws = Except.ok reqs →
        reqs.map Prod.snd = ws := by
  intro ws
  induction ws with
  | nil =>
    intro k reqs h
    simp only [producerGo, Except.ok.injEq] at h
    rw [← h]
    rfl
  | cons w ws' ih =>
    intro k reqs h
    simp only [producerGo] at h
    cases hm : materialize uj tgt tmpl w with
    | none => rw [hm] at h; exact absurd h (by simp)
    | some c =>
      rw [hm] at h
      cases hr : producerGo uj tgt tmpl (k + 1) ws' with
      | error j => rw [hr] at h; exact absurd h (by simp)
      | ok rs =>
        rw [hr] at h
        simp only [Except.ok.injEq] at h
        rw [← h]
        simp only [List.map_cons]
        rw [ih (k + 1) rs hr]

/-- Claim C8 (confirmed): the wordlist is split into lines (each line
trimmed of trailing whitespace only — the trimmed entry is a prefix of the
raw line, so leading whitespace is preserved, and nothing but whitespace is
removed from the end), empty lines are kept as entries, repeated lines are
kept (the splitting is purely positional), and the producer materializes
and submits the entries in exactly wordlist order (the submitted tags are
the entry list itself). -/
theorem C8_claim : ∀ (pre post s : List Char) (ws : List (List Char))
    (uj : List Char → List Char → Option (List Char)) (tgt : List Char)
    (tmpl : List Nat) (k : Nat)
    (reqs : List (CandidateRequest × List Char)),
    ('\n' ∉ pre → wordlistEntries (pre ++ '\n' :: post) =
      rustTrimEnd (stripCR pre) :: wordlistEntries post)
    ∧ (∃ wsp, s = rustTrimEnd s ++ wsp ∧ ∀ c ∈ wsp, rustIsWhitespace c = true)
    ∧ (rustTrimEnd s).getLast?.all (fun c => !rustIsWhitespace c) = true
    ∧ (producerGo uj tgt tmpl k ws = Except.ok reqs →
        reqs.map Prod.snd = ws) := by
  intro pre post s ws uj tgt tmpl k reqs
  refine ⟨?_, rustTrimEnd_decomposition s, rustTrimEnd_no_trailing_ws s,
    producerGo_ok_map uj tgt tmpl ws k reqs⟩
  intro hnl
  unfold wordlistEntries rustLines
  rw [linesGo_append_nl pre hnl [] post]
  simp


/-! ## Helper lemmas: the head parser consumes exactly the head -/

theorem splitAtNl_append_nl : ∀ (pre : List Char), '\n' ∉ pre →
    ∀ post, splitAtNl (pre ++ '\n' :: post) = some (pre, post) := by
  intro pre
  induction pre with
  | nil => intro _ post; simp [splitAtNl]
  | cons c pre' ih =>
    intro hnl post
    have hc : ¬c = '\n' := fun hh => hnl (by rw [hh]; exact List.mem_cons_self _ _)
    simp only [List.cons_append, splitAtNl, if_neg hc, List.append_eq]
    rw [ih (fun hh => hnl (List.mem_cons_of_mem _ hh)) post]
    rfl

theorem splitAtNl_sound : ∀ (s raw r : List Char),
    splitAtNl s = some (raw, r) → s = raw ++ '\n' :: r ∧ '\n' ∉ raw := by
  intro s
  induction s with
  | nil => intro raw r h; simp [splitAtNl] at h
  | cons c t ih =>
    intro raw r h
    simp only [splitAtNl] at h
    by_cases hc : c = '\n'
    · rw [if_pos hc] at h
      simp only [Option.some.injEq, Prod.mk.injEq] at h
      obtain ⟨h1, h2⟩ := h
      subst hc
      rw [← h1, ← h2]
      exact ⟨rfl, by simp⟩
    · rw [if_neg hc] at h
      cases hs : splitAtNl t with
      | none => rw [hs] at h; simp at h
      | some p =>
        rw [hs] at h
        simp only [Option.map_some', Option.some.injEq, Prod.mk.injEq] at h
        obtain ⟨h1, h2⟩ := h
        obtain ⟨ht, hmem⟩ := ih p.1 p.2 hs
        rw [← h1, ← h2]
        constructor
        · rw [List.cons_append, ← ht]
        · intro hin
          rcases List.mem_cons.mp hin with hh | hh
          · exact hc hh.symm
          · exact hmem hh

theorem takeLine_exact : ∀ (s l r : List Char), takeLine s = some (l, r) →
    ∃ pre, s = pre ++ r ∧ 1 ≤ pre.length ∧
      ∀ g, takeLine (pre ++ g) = some (l, g) := by
  intro s l r h
  unfold takeLine at h
  cases hs : splitAtNl s with
  | none => rw [hs] at h; simp at h
  | some p =>
    rw [hs] at h
    simp only [Option.map_some', Option.some.injEq, Prod.mk.injEq] at h
    obtain ⟨h1, h2⟩ := h
    obtain ⟨hsplit, hmem⟩ := splitAtNl_sound s p.1 p.2 hs
    refine ⟨p.1 ++ ['\n'], ?_, by simp, ?_⟩
    · rw [hsplit, ← h2]
      simp
    · intro g
      unfold takeLine
      rw [List.append_assoc]
      simp only [List.singleton_append]
      rw [splitAtNl_append_nl p.1 hmem g]
      simp [h1]

theorem parseHeadersGo_le : ∀ (fuel cap : Nat) (s : List Char)
    (hs : List (List Char × List Char)) (r : List Char),
    parseHeadersGo cap fuel s = some (hs, r) → hs.length ≤ cap := by
  intro fuel
  induction fuel with
  | zero => intro cap s hs r h; simp [parseHeadersGo] at h
  | succ fuel ih =>
    intro cap s hs r h
    cases htl : takeLine s with
    | none => simp [parseHeadersGo, htl] at h
    | some lr =>
      obtain ⟨line, rest⟩ := lr
      simp only [parseHeadersGo, htl] at h
      by_cases hline : line.isEmpty
      · rw [if_pos hline] at h
        simp only [Option.some.injEq, Prod.mk.injEq] at h
        rw [← h.1]
        simp
      · rw [if_neg hline] at h
        by_cases hcap : cap = 0
        · rw [if_pos hcap] at h; simp at h
        · rw [if_neg hcap] at h
          cases hp : parseHeaderLine line with
          | none => rw [hp] at h; simp at h
          | some hd =>
            rw [hp] at h
            replace h : Option.map (fun p => (hd :: p.1, p.2))
                (parseHeadersGo (cap - 1) fuel rest) = some (hs, r) := h
            cases hrec : parseHeadersGo (cap - 1) fuel rest with
            | none => rw [hrec] at h; simp at h
            | some p =>
              rw [hrec] at h
              simp only [Option.map_some', Option.some.injEq,
                Prod.mk.injEq] at h
              rw [← h.1]
              simp only [List.length_cons]
              have := ih (cap - 1) rest p.1 p.2 hrec
              omega

theorem parseHeadersGo_cap_fail : ∀ (fuel cap1 cap2 : Nat) (s : List Char)
    (hs : List (List Char × List Char)) (r : List Char),
    parseHeadersGo cap1 fuel s = some (hs, r) → cap2 < hs.length →
    parseHeadersGo cap2 fuel s = none := by
  intro fuel
  induction fuel with
  | zero => intro cap1 cap2 s hs r h _; simp [parseHeadersGo] at h
  | succ fuel ih =>
    intro cap1 cap2 s hs r h hcap
    cases htl : takeLine s with
    | none => simp [parseHeadersGo, htl] at h
    | some lr =>
      obtain ⟨line, rest⟩ := lr
      simp only [parseHeadersGo, htl] at h ⊢
      by_cases hline : line.isEmpty
      · rw [if_pos hline] at h
        simp only [Option.some.injEq, Prod.mk.injEq] at h
        rw [← h.1] at hcap
        simp at hcap
      · rw [if_neg hline] at h ⊢
        by_cases hc1 : cap1 = 0
        · rw [if_pos hc1] at h; simp at h
        · rw [if_neg hc1] at h
          cases hp : parseHeaderLine line with
          | none => rw [hp] at h; simp at h
          | some hd =>
            rw [hp] at h
            replace h : Option.map (fun p => (hd :: p.1, p.2))
                (parseHeadersGo (cap1 - 1) fuel rest) = some (hs, r) := h
            cases hrec : parseHeadersGo (cap1 - 1) fuel rest with
            | none => rw [hrec] at h; simp at h
            | some p =>
              rw [hrec] at h
              simp only [Option.map_some', Option.some.injEq,
                Prod.mk.injEq] at h
              by_cases hc2 : cap2 = 0
              · rw [if_pos hc2]
              · rw [if_neg hc2]
                have hlt : cap2 - 1 < p.1.length := by
                  rw [← h.1] at hcap
                  simp only [List.length_cons] at hcap
                  omega
                show Option.map (fun q => (hd :: q.1, q.2))
                    (parseHeadersGo (cap2 - 1) fuel rest) = none
                rw [ih (cap1 - 1) (cap2 - 1) rest p.1 p.2 hrec hlt]
                rfl


theorem parseHeadersGo_split : ∀ (fuel cap : Nat) (s : List Char)
    (hs : List (List Char × List Char)) (r : List Char),
    parseHeadersGo cap fuel s = some (hs, r) →
    ∃ pre, s = pre ++ r ∧ ∀ (g : List Char) (f2 : Nat),
      (pre ++ g).length < f2 → parseHeadersGo cap f2 (pre ++ g) = some (hs, g) := by
  intro fuel
  induction fuel with
  | zero => intro cap s hs r h; simp [parseHeadersGo] at h
  | succ fuel ih =>
    intro cap s hs r h
    cases htl : takeLine s with
    | none => simp [parseHeadersGo, htl] at h
    | some lr =>
      obtain ⟨line, rest⟩ := lr
      simp only [parseHeadersGo, htl] at h
      obtain ⟨preL, hsplit, hlen1, htake⟩ := takeLine_exact s line rest htl
      by_cases hline : line.isEmpty
      · rw [if_pos hline] at h
        simp only [Option.some.injEq, Prod.mk.injEq] at h
        refine ⟨preL, by rw [hsplit, h.2], ?_⟩
        intro g f2 hf2
        cases f2 with
        | zero => simp at hf2
        | succ f2 =>
          simp only [parseHeadersGo, htake g, if_pos hline]
          rw [← h.1]
      · rw [if_neg hline] at h
        by_cases hcap : cap = 0
        · rw [if_pos hcap] at h; simp at h
        · rw [if_neg hcap] at h
          cases hp : parseHeaderLine line with
          | none => rw [hp] at h; simp at h
          | some hd =>
            rw [hp] at h
            replace h : Option.map (fun p => (hd :: p.1, p.2))
                (parseHeadersGo (cap - 1) fuel rest) = some (hs, r) := h
            cases hrec : parseHeadersGo (cap - 1) fuel rest with
            | none => rw [hrec] at h; simp at h
            | some p =>
              rw [hrec] at h
              simp only [Option.map_some', Option.some.injEq,
                Prod.mk.injEq] at h
              obtain ⟨preR, hrest, hrec2⟩ := ih (cap - 1) rest p.1 p.2 hrec
              refine ⟨preL ++ preR, ?_, ?_⟩
              · rw [hsplit, hrest, ← h.2, List.append_assoc]
              · intro g f2 hf2
                cases f2 with
                | zero => simp at hf2
                | succ f2 =>
                  rw [List.append_assoc]
                  simp only [parseHeadersGo, htake (preR ++ g),
                    if_neg hline, if_neg hcap, hp]
                  have hlt : (preR ++ g).length < f2 := by
                    rw [List.append_assoc] at hf2
                    simp only [List.length_append] at hf2 ⊢
                    omega
                  rw [hrec2 g f2 hlt]
                  simp [← h.1]

theorem parseHead_eval {s rl r1 m p : List Char}
    {headers : List (List Char × List Char)} {rest : List Char}
    (htl : takeLine s = some (rl, r1))
    (hrl : parseRequestLine rl = some (m, p))
    (hph : parseHeaders 64 r1 = some (headers, rest)) :
    parseHead s = some ⟨m, p, headers, rest⟩ := by
  simp only [parseHead, htl, hrl, hph]

theorem parseHead_split : ∀ (s : List Char) (pr : ParsedHead),
    parseHead s = some pr →
    ∃ h, s = h ++ pr.body ∧ ∀ g, parseHead (h ++ g) =
      some ⟨pr.method, pr.path, pr.headers, g⟩ := by
  intro s pr h
  cases htl : takeLine s with
  | none => simp [parseHead, htl] at h
  | some lr =>
    obtain ⟨rl, r1⟩ := lr
    simp only [parseHead, htl] at h
    cases hrl : parseRequestLine rl with
    | none => simp only [hrl] at h; exact absurd h (by simp)
    | some mp =>
      obtain ⟨m, p⟩ := mp
      simp only [hrl] at h
      cases hph : parseHeaders 64 r1 with
      | none => simp only [hph] at h; exact absurd h (by simp)
      | some hsr =>
        obtain ⟨headers, rest⟩ := hsr
        simp only [hph, Option.some.injEq] at h
        subst h
        obtain ⟨preL, hsplit, _, htake⟩ := takeLine_exact s rl r1 htl
        unfold parseHeaders at hph
        obtain ⟨preH, hrest, hgo⟩ :=
          parseHeadersGo_split (r1.length + 1) 64 r1 headers rest hph
        refine ⟨preL ++ preH, ?_, ?_⟩
        · rw [hsplit, hrest, List.append_assoc]
        · intro g
          rw [List.append_assoc]
          have hgo2 : parseHeaders 64 (preH ++ g) = some (headers, g) := by
            unfold parseHeaders
            exact hgo g ((preH ++ g).length + 1) (by omega)
          exact parseHead_eval (htake (preH ++ g)) hrl hgo2


theorem parseHead_inv : ∀ (s : List Char) (pr : ParsedHead),
    parseHead s = some pr →
    ∃ rl r1, takeLine s = some (rl, r1)
      ∧ parseRequestLine rl = some (pr.method, pr.path)
      ∧ parseHeaders 64 r1 = some (pr.headers, pr.body) := by
  intro s pr h
  cases htl : takeLine s with
  | none => simp [parseHead, htl] at h
  | some lr =>
    obtain ⟨rl, r1⟩ := lr
    simp only [parseHead, htl] at h
    cases hrl : parseRequestLine rl with
    | none => simp only [hrl] at h; exact absurd h (by simp)
    | some mp =>
      obtain ⟨m, p⟩ := mp
      simp only [hrl] at h
      cases hph : parseHeaders 64 r1 with
      | none => simp only [hph] at h; exact absurd h (by simp)
      | some hsr =>
        obtain ⟨headers, rest⟩ := hsr
        simp only [hph, Option.some.injEq] at h
        subst h
        exact ⟨rl, r1, rfl, hrl, hph⟩

theorem materialize_inv : ∀ (uj : List Char → List Char → Option (List Char))
    (tgt : List Char) (tmpl : List Nat) (w : List Char)
    (c : CandidateRequest), materialize uj tgt tmpl w = some c →
    ∃ pr u, parseHead (substituted tmpl w) = some pr
      ∧ uj tgt pr.path = some u
      ∧ c = ⟨pr.method, u, pr.headers, pr.body⟩ := by
  intro uj tgt tmpl w c h
  cases hp : parseHead (substituted tmpl w) with
  | none => simp [materialize, hp] at h
  | some pr =>
    simp only [materialize, hp] at h
    cases hu : uj tgt pr.path with
    | none => simp only [hu] at h; exact absurd h (by simp)
    | some u =>
      simp only [hu, Option.some.injEq] at h
      exact ⟨pr, u, rfl, hu, h.symm⟩

/-- Counterexample to claim C2 as stated: a template declaring
`Content-Length: 4` with body `abcd` followed by the garbage `XYZ`
materializes to a request whose body is the 7 bytes `abcdXYZ` — the
declared length is ignored and the trailing garbage is included, so the
body is not the declared 4 bytes. -/
theorem C2_counterexample :
    (materialize (fun _ p => some p) "t".data
        (asciiBytes "POST /x HTTP/1.1\r\nContent-Length: 4\r\n\r\nabcdXYZ")
        ['w']).map (fun c => (c.body, specDeclaredContentLength c.headers)) =
      some ("abcdXYZ".data, some 4)
    ∧ "abcdXYZ".data.length ≠ 4 :=
  ⟨by decide, by decide⟩

/-- Claim C2 (corrected): the materialized body is not Content-Length
bounded; it is the entire remainder of the substituted skeleton after the
blank line that terminates the headers (`raw_request[bytes_read..]`),
whatever `Content-Length` declares.  The head parse consumes exactly the
bytes up to and including the blank line — it is independent of what
follows, so the body starts immediately after the blank line and runs to
the end of the trimmed skeleton, trailing garbage included. -/
theorem C2_claim : ∀ (uj : List Char → List Char → Option (List Char))
    (tgt : List Char) (tmpl : List Nat) (w : List Char)
    (c : CandidateRequest) (s : List Char) (pr : ParsedHead),
    (materialize uj tgt tmpl w = some c →
      ∃ pr2, parseHead (substituted tmpl w) = some pr2 ∧ c.body = pr2.body)
    ∧ (parseHead s = some pr →
      ∃ h, s = h ++ pr.body ∧ ∀ g, parseHead (h ++ g) =
        some ⟨pr.method, pr.path, pr.headers, g⟩) := by
  intro uj tgt tmpl w c s pr
  constructor
  · intro h
    obtain ⟨pr2, u, hp, _, hc⟩ := materialize_inv uj tgt tmpl w c h
    exact ⟨pr2, hp, by rw [hc]⟩
  · exact parseHead_split s pr

/-- Witness for C2: the parsed head of a concrete request is independent of
the bytes that follow its blank line, and the body is exactly that tail. -/
theorem C2_witness :
    parseHead ("GET /x HTTP/1.1\r\n\r\n".data ++ "TAIL".data) =
      some ⟨"GET".data, "/x".data, [], "TAIL".data⟩ := by
  obtain ⟨h, hs, hg⟩ :=
    (C2_claim (fun _ p => some p) [] [] [] ⟨[], [], [], []⟩
      "GET /x HTTP/1.1\r\n\r\nBODY".data
      ⟨"GET".data, "/x".data, [], "BODY".data⟩).2 (by decide)
  have hpre : h = "GET /x HTTP/1.1\r\n\r\n".data := by
    have hs2 : h ++ "BODY".data =
        "GET /x HTTP/1.1\r\n\r\n".data ++ "BODY".data := by
      rw [← hs]; decide
    exact List.append_cancel_right hs2
  rw [← hpre]
  exact hg "TAIL".data

/-- Claim C10 (confirmed): the head parser has a fixed capacity of 64
header slots; a substituted skeleton containing more than 64 headers fails
the header-block parse under the 64-slot capacity (so its materialization
fails, which aborts the run via the producer's `unwrap`), and every
successfully materialized request carries at most 64 headers. -/
theorem C10_claim : ∀ (s : List Char) (pr : ParsedHead) (cap : Nat)
    (t : List Char) (hs : List (List Char × List Char)) (r : List Char)
    (uj : List Char → List Char → Option (List Char)) (tgt : List Char)
    (tmpl : List Nat) (w : List Char) (c : CandidateRequest),
    (parseHead s = some pr → pr.headers.length ≤ 64)
    ∧ (parseHeaders cap t = some (hs, r) → 64 < hs.length →
        parseHeaders 64 t = none)
    ∧ (materialize uj tgt tmpl w = some c → c.headers.length ≤ 64) := by
  intro s pr cap t hs r uj tgt tmpl w c
  have hhead : parseHead s = some pr → pr.headers.length ≤ 64 := by
    intro h
    obtain ⟨rl, r1, _, _, hph⟩ := parseHead_inv s pr h
    exact parseHeadersGo_le (r1.length + 1) 64 r1 pr.headers pr.body hph
  refine ⟨hhead, ?_, ?_⟩
  · intro h hgt
    exact parseHeadersGo_cap_fail (t.length + 1) cap 64 t hs r h hgt
  · intro h
    obtain ⟨pr2, u, hp, _, hc⟩ := materialize_inv uj tgt tmpl w c h
    obtain ⟨rl, r1, _, _, hph⟩ := parseHead_inv _ pr2 hp
    have hle := parseHeadersGo_le (r1.length + 1) 64 r1 pr2.headers pr2.body hph
    rw [hc]
    exact hle

/-- Witness for C10: a concrete materialization has at most 64 headers, and
a 2-header block fails under capacity 1. -/
theorem C10_witness :
    ((⟨"GET".data, "/a".data, [("H".data, "v".data)], "x".data⟩ :
        CandidateRequest).headers.length ≤ 64)
    ∧ parseHeaders 64 "A: b\r\nB: c\r\n\r\nrest".data =
        some ([("A".data, "b".data), ("B".data, "c".data)], "rest".data) :=
  ⟨(C10_claim [] ⟨[], [], [], []⟩ 0 [] [] []
      (fun _ p => some p) "t".data
      (asciiBytes "GET /FUZZ HTTP/1.1\r\nH: v\r\n\r\nx") "a".data
      ⟨"GET".data, "/a".data, [("H".data, "v".data)], "x".data⟩).2.2
    (by decide), by decide⟩


/-- Witness for C8: a line with leading and trailing whitespace, and a
2-entry producer run submitting in wordlist order. -/
theorem C8_witness :
    wordlistEntries ("  a ".data ++ '\n' :: "b".data) =
      rustTrimEnd (stripCR "  a ".data) :: wordlistEntries "b".data
    ∧ ([(⟨"GET".data, "/a".data, [("H".data, "v".data)], "x".data⟩,
          "a".data),
        (⟨"GET".data, "/b".data, [("H".data, "v".data)], "x".data⟩,
          "b".data)] :
        List (CandidateRequest × List Char)).map Prod.snd =
      ["a".data, "b".data] :=
  ⟨(C8_claim "  a ".data "b".data [] [] (fun _ p => some p) "t".data
      [] 0 []).1 (by decide),
   (C8_claim [] [] [] ["a".data, "b".data] (fun _ p => some p) "t".data
      (asciiBytes "GET /FUZZ HTTP/1.1\r\nH: v\r\n\r\nx") 0
      [(⟨"GET".data, "/a".data, [("H".data, "v".data)], "x".data⟩,
          "a".data),
       (⟨"GET".data, "/b".data, [("H".data, "v".data)], "x".data⟩,
          "b".data)]).2.2.2 (by rfl)⟩

/-! ## Helper lemmas: per-lane pacing -/

theorem laneStart_lb (last r : Int) : last + 1000 ≤ laneStart last r := by
  unfold laneStart
  split <;> omega

theorem validLane_paced : ∀ (l : List (Int × Int)) (last t : Int),
    validLane last t l = true → paced last (laneRun last l) = true := by
  intro l
  induction l with
  | nil => intro last t _; rfl
  | cons rd rest ih =>
    intro last t hv
    obtain ⟨r, d⟩ := rd
    simp only [validLane, Bool.and_eq_true, decide_eq_true_eq] at hv
    obtain ⟨⟨_, hd⟩, hrest⟩ := hv
    simp only [laneRun, paced, Bool.and_eq_true, decide_eq_true_eq]
    refine ⟨⟨laneStart_lb last r, by omega⟩, ?_⟩
    exact ih (laneStart last r + d) (laneStart last r + d) hrest

theorem foldl_max_init : ∀ (l : List Int) (a : Int), a ≤ l.foldl max a := by
  intro l
  induction l with
  | nil => intro a; exact le_refl a
  | cons x t ih =>
    intro a
    exact le_trans (le_max_left a x) (ih (max a x))

theorem foldl_max_mem : ∀ (l : List Int) (a x : Int), x ∈ l →
    x ≤ l.foldl max a := by
  intro l
  induction l with
  | nil => intro a x hx; simp at hx
  | cons y t ih =>
    intro a x hx
    rcases List.mem_cons.mp hx with h | h
    · subst h
      exact le_trans (le_max_right a x) (foldl_max_init t (max a x))
    · exact ih (max a y) x h

theorem laneRun_lb : ∀ (l : List (Int × Int)) (last t : Int), last ≤ t →
    validLane last t l = true →
    last + 1000 * l.length ≤ lastCompletionFrom t (laneRun last l) := by
  intro l
  induction l with
  | nil =>
    intro last t hlt _
    simpa [laneRun, lastCompletionFrom] using hlt
  | cons rd rest ih =>
    intro last t hlt hv
    obtain ⟨r, d⟩ := rd
    simp only [validLane, Bool.and_eq_true, decide_eq_true_eq] at hv
    obtain ⟨⟨_, hd⟩, hrest⟩ := hv
    simp only [laneRun, lastCompletionFrom, List.map_cons, List.foldl_cons]
    have hih := ih (laneStart last r + d) (laneStart last r + d)
      (le_refl _) hrest
    unfold lastCompletionFrom at hih
    have hmono : (List.map Prod.snd (laneRun (laneStart last r + d) rest)).foldl
        max (laneStart last r + d) ≤
        (List.map Prod.snd (laneRun (laneStart last r + d) rest)).foldl
        max (max t (laneStart last r + d)) := by
      have : ∀ (xs : List Int) (a b : Int), a ≤ b →
          xs.foldl max a ≤ xs.foldl max b := by
        intro xs
        induction xs with
        | nil => intro a b hab; exact hab
        | cons x xt ihx =>
          intro a b hab
          exact ihx (max a x) (max b x) (max_le_max hab (le_refl x))
      exact this _ _ _ (le_max_right t (laneStart last r + d))
    have hstart := laneStart_lb last r
    simp only [List.length_cons]
    calc last + 1000 * ((rest.length : Int) + 1)
        = (last + 1000) + 1000 * rest.length := by ring
      _ ≤ (laneStart last r + d) + 1000 * rest.length := by omega
      _ ≤ _ := le_trans (le_trans (by omega) hih) hmono

theorem exists_lane_ge : ∀ (lanes : List (List (Int × Int))),
    lanes ≠ [] → ∃ l ∈ lanes,
      (totalRequests lanes + lanes.length - 1) / lanes.length ≤ l.length := by
  intro lanes hne
  by_contra hcon
  push_neg at hcon
  set k := (totalRequests lanes + lanes.length - 1) / lanes.length with hk
  cases hkz : k with
  | zero =>
    obtain ⟨l0, hl0⟩ := List.exists_mem_of_ne_nil lanes hne
    exact absurd (hkz ▸ (Nat.zero_le l0.length)) (by
      have := hcon l0 hl0
      omega)
  | succ k' =>
    have hbound : ∀ x ∈ lanes.map List.length, x ≤ k' := by
      intro x hx
      obtain ⟨l, hl, hxl⟩ := List.mem_map.mp hx
      have := hcon l hl
      omega
    have hsum : totalRequests lanes ≤ lanes.length * k' := by
      unfold totalRequests
      have := List.sum_le_card_nsmul (lanes.map List.length) k' hbound
      simpa [smul_eq_mul, Nat.mul_comm] using this
    have hN : 1 ≤ lanes.length := by
      cases lanes with
      | nil => exact absurd rfl hne
      | cons _ _ => simp
    have hdivle : (totalRequests lanes + lanes.length - 1) / lanes.length ≤
        (lanes.length * k' + (lanes.length - 1)) / lanes.length := by
      apply Nat.div_le_div_right
      omega
    have heq : (lanes.length * k' + (lanes.length - 1)) / lanes.length = k' := by
      rw [Nat.add_comm]
      rw [Nat.add_mul_div_left _ _ (by omega : 0 < lanes.length)]
      rw [Nat.div_eq_of_lt (by omega)]
      omega
    rw [heq] at hdivle
    rw [← hk] at hdivle
    omega


/-- Counterexample to claim C6 as stated: one lane, one request received at
time 0 with an instant always-succeeding transport is a valid schedule
(M = 1 ≥ N = 1), yet the whole run completes at time 0 — strictly less
than the claimed lower bound of ceil(M/N) = 1 second — because a lane's
very first request is not paced (`last_request` is initialised to
`now - 1s`). -/
theorem C6_counterexample :
    validLane initLast 0 [((0 : Int), (0 : Int))] = true
    ∧ runMakespan [[((0 : Int), (0 : Int))]] = 0
    ∧ ¬(1000 * (((totalRequests [[((0 : Int), (0 : Int))]] +
          [[((0 : Int), (0 : Int))]].length - 1) /
            [[((0 : Int), (0 : Int))]].length : Nat) : Int) ≤
        runMakespan [[((0 : Int), (0 : Int))]]) :=
  ⟨by decide, by decide, by decide⟩

/-- Claim C6 (corrected): every lane does sleep until at least 1000 ms have
elapsed since its recorded timestamp before starting its next execution —
but that timestamp is recorded at the completion of the previous request,
and the initial timestamp is `now - 1s`, so each lane's first request
starts unpaced.  Consequently a valid run of M requests on N lanes takes at
least (ceil(M/N) - 1) seconds, not ceil(M/N): some lane executes at least
ceil(M/N) requests, consecutive starts of one lane are at least 1000 ms
apart, and only the first of them can be at time 0. -/
theorem C6_claim :
    (∀ (l : List (Int × Int)) (last t : Int), validLane last t l = true →
      paced last (laneRun last l) = true)
    ∧ (∀ lanes : List (List (Int × Int)), lanes ≠ [] →
      (∀ l ∈ lanes, validLane initLast 0 l = true) →
      1000 * (((totalRequests lanes + lanes.length - 1) /
          lanes.length : Nat) : Int) - 1000 ≤ runMakespan lanes) := by
  constructor
  · exact fun l last t hv => validLane_paced l last t hv
  · intro lanes hne hv
    obtain ⟨l0, hl0mem, hl0len⟩ := exists_lane_ge lanes hne
    have hlb := laneRun_lb l0 initLast 0 (by unfold initLast; omega)
      (hv l0 hl0mem)
    have hfin : laneFinish l0 ≤ runMakespan lanes := by
      unfold runMakespan
      exact foldl_max_mem (lanes.map laneFinish) 0 (laneFinish l0)
        (List.mem_map_of_mem laneFinish hl0mem)
    unfold laneFinish at hfin
    have hcast : ((((totalRequests lanes + lanes.length - 1) /
        lanes.length : Nat)) : Int) ≤ (l0.length : Int) := by
      exact_mod_cast hl0len
    have hinit : initLast = (-1000 : Int) := rfl
    omega

/-- Witness for C6: a single lane receiving two instant requests at times 0
and 1000 is valid and paced, and satisfies the corrected lower bound. -/
theorem C6_witness :
    paced initLast (laneRun initLast [((0 : Int), (0 : Int)), (1000, 0)]) = true
    ∧ 1000 * (((totalRequests [[((0 : Int), (0 : Int)), (1000, 0)]] +
        [[((0 : Int), (0 : Int)), (1000, 0)]].length - 1) /
          [[((0 : Int), (0 : Int)), (1000, 0)]].length : Nat) : Int) - 1000 ≤
      runMakespan [[((0 : Int), (0 : Int)), (1000, 0)]] :=
  ⟨C6_claim.1 [((0 : Int), (0 : Int)), (1000, 0)] initLast 0 (by decide),
   C6_claim.2 [[((0 : Int), (0 : Int)), (1000, 0)]] (by simp)
     (by intro l hl; simp at hl; rw [hl]; decide)⟩


/-- Counterexample to claim C9 as stated: with an empty wordlist the
producer loop never runs, so none of the configuration errors is ever
detected — here both an unparsable base target URL (the URL oracle always
fails) and a rate of 0 are configured, yet the run completes normally with
zero verdicts: no abort, and no distinguishable run-level failure. -/
theorem C9_counterexample :
    runModel (fun _ _ => none) "bad target".data (asciiBytes "x") 0 []
        ⟨none, none, none⟩ (fun _ _ => Except.ok ⟨200, []⟩) =
      RunBehavior.completes (CollectorResult.done [])
    ∧ RunBehavior.completes (CollectorResult.done []) ≠ RunBehavior.fatal
    ∧ RunBehavior.completes (CollectorResult.done []) ≠ RunBehavior.fatalSend :=
  ⟨by decide, by decide, by decide⟩

/-- Claim C9 (corrected): provided the wordlist is nonempty, configuration
errors are fatal and abort the run before dispatch with no verdicts and a
run-level panic — a template or base-URL parse failure panics the producer
at the first materialization, and a rate of 0 panics the producer at its
first submission (zero lanes were spawned, so the submission channel's
receivers were all dropped and the closed-channel `send` fails its
`unwrap`).  But the errors are only detected lazily inside the per-entry
loop: with an empty wordlist none of them is raised at all, and the run
completes normally with zero verdicts. -/
theorem C9_claim : ∀ (uj : List Char → List Char → Option (List Char))
    (tgt : List Char) (tmpl : List Nat) (rate : Nat) (contents : List Char)
    (crit : SuccessCriteria)
    (oracle : Nat → Nat → Except TransportErr HttpResponse)
    (w0 : List Char) (ws : List (List Char)) (c : CandidateRequest),
    (wordlistEntries contents = w0 :: ws →
      materialize uj tgt tmpl w0 = none →
      runModel uj tgt tmpl rate contents crit oracle = RunBehavior.fatal)
    ∧ (wordlistEntries contents = w0 :: ws →
      materialize uj tgt tmpl w0 = some c →
      runModel uj tgt tmpl 0 contents crit oracle = RunBehavior.fatalSend)
    ∧ (wordlistEntries contents = [] →
      runModel uj tgt tmpl rate contents crit oracle =
        RunBehavior.completes (CollectorResult.done [])) := by
  intro uj tgt tmpl rate contents crit oracle w0 ws c
  refine ⟨?_, ?_, ?_⟩
  · intro hwords hmat
    simp only [runModel, hwords, hmat]
  · intro hwords hmat
    simp only [runModel, hwords, hmat, if_true]
  · intro hwords
    simp only [runModel, hwords]

/-- Witness for C9: a malformed template aborts the run before dispatch,
and a rate of 0 over a nonempty wordlist with a well-formed template
aborts at the first submission. -/
theorem C9_witness :
    runModel (fun _ p => some p) "t".data (asciiBytes "NOT A REQUEST") 3
        "admin".data ⟨none, none, none⟩ (fun _ _ => Except.ok ⟨200, []⟩) =
      RunBehavior.fatal
    ∧ runModel (fun _ p => some p) "t".data
        (asciiBytes "GET /FUZZ HTTP/1.1\r\nH: v\r\n\r\nx") 0 "admin".data
        ⟨none, none, none⟩ (fun _ _ => Except.ok ⟨200, []⟩) =
      RunBehavior.fatalSend :=
  ⟨(C9_claim (fun _ p => some p) "t".data (asciiBytes "NOT A REQUEST") 3
      "admin".data ⟨none, none, none⟩ (fun _ _ => Except.ok ⟨200, []⟩)
      "admin".data [] ⟨[], [], [], []⟩).1 (by decide) (by decide),
   (C9_claim (fun _ p => some p) "t".data
      (asciiBytes "GET /FUZZ HTTP/1.1\r\nH: v\r\n\r\nx") 0 "admin".data
      ⟨none, none, none⟩ (fun _ _ => Except.ok ⟨200, []⟩)
      "admin".data []
      ⟨"GET".data, "/admin".data, [("H".data, "v".data)], "x".data⟩).2.1
      (by decide) (by decide)⟩

end Brutus
